import Mathlib

/-!
Verification of the combine chat-recommendation service.

This file gives a shallow embedding of the core data structures and
operations of the repository (the expiring cache, the signed-token
round-trip, the IRC client write path, the training queue, the
prediction/filter engine, the recommendation loop and the command
dispatcher) and proves the behavioural properties the design document
states about them.  Each definition mirrors one function or class of the
Python source; times are rationals, machine floats are modelled as exact
rationals or reals, and the symmetric cipher is modelled symbolically.
-/

namespace Combine

/-! ## Expiring cache (src/combine/expiring_cache.py)

`ExpiringCache.__getitem__` calls the stored `_Entry`, which raises
`_Expired` (turned into `KeyError`, i.e. a miss) when
`datetime.datetime.now() >= self._expires`, and returns the value
otherwise.  `__setitem__` stores a fresh `_Entry(value, expires)`.
-/

/-- The mapping held by an `ExpiringCache`: each key optionally has a
stored value together with its absolute expiry time. -/
structure ExpiringCache (κ ν : Type) where
  entries : κ → Option (ν × ℚ)

/-- A cache with no entries (`ExpiringCache.__init__`). -/
def ExpiringCache.empty (κ ν : Type) : ExpiringCache κ ν :=
  ⟨fun _ => none⟩

/-- `cache[key] = (value, expires)` — `ExpiringCache.__setitem__`. -/
def ExpiringCache.set {κ ν : Type} [DecidableEq κ] (c : ExpiringCache κ ν)
    (key : κ) (value : ν) (expires : ℚ) : ExpiringCache κ ν :=
  ⟨fun k => if k = key then some (value, expires) else c.entries k⟩

/-- `cache[key]` at wall-clock time `now` — `ExpiringCache.__getitem__`
composed with `_Entry.__call__`.  A `none` result is the `KeyError`
miss; an entry with `now >= expires` behaves exactly like a missing
key. -/
def ExpiringCache.get {κ ν : Type} (c : ExpiringCache κ ν) (now : ℚ) (key : κ) :
    Option ν :=
  match c.entries key with
  | none => none
  | some (v, expires) => if now ≥ expires then none else some v

/-! ## Tokens (src/combine/token.py and src/combine/uploader/views.py)

`gen_token` encrypts the JSON payload `{issued, expires, user}` with the
Fernet secret; when no expiry is passed it uses `now + 12 hours`.  The
uploader's `train` view decrypts the posted token (any decryption or
decoding failure is a 401 rejection), rejects it when
`pd.Timestamp.now() > token['expires']`, and only then trusts
`token['user']`.  The cipher is modelled symbolically: a ciphertext
remembers the secret it was produced with, and decryption succeeds only
under that same secret.  Times are rationals measured in hours. -/

/-- The decrypted token payload: `{issued, expires, user}`. -/
structure TokenPayload where
  issued : ℚ
  expires : ℚ
  user : String
  deriving DecidableEq

/-- Symbolic Fernet ciphertexts: either an honest encryption under some
secret, or an arbitrary non-decrypting blob. -/
inductive Ciphertext
  | enc (secret : ℕ) (payload : TokenPayload)
  | garbage (id : ℕ)
  deriving DecidableEq

/-- Symbolic Fernet decryption: succeeds exactly on ciphertexts produced
under the same secret. -/
def fernetDecrypt (secret : ℕ) : Ciphertext → Option TokenPayload
  | Ciphertext.enc s p => if s = secret then some p else none
  | Ciphertext.garbage _ => none

/-- `gen_token(token_secret, user, expires=expires)`: the issued time is
`now`, and a missing expiry defaults to twelve hours after issuance. -/
def gen_token (secret : ℕ) (user : String) (now : ℚ) (expires : Option ℚ) :
    Ciphertext :=
  Ciphertext.enc secret
    { issued := now, expires := expires.getD (now + 12), user := user }

/-- The two rejection outcomes of the uploader's token check. -/
inductive VerifyError
  | decodeFailure
  | expiredToken
  deriving DecidableEq

/-- The token-verification prefix of the `train` view: decrypt (failing
closed on any undecryptable payload), reject when the current time is
strictly past `expires`, otherwise recover the user. -/
def verifyToken (secret : ℕ) (now : ℚ) (ct : Ciphertext) :
    Except VerifyError String :=
  match fernetDecrypt secret ct with
  | none => Except.error VerifyError.decodeFailure
  | some tok =>
    if tok.expires < now then Except.error VerifyError.expiredToken
    else Except.ok tok.user

/-! ## IRC client write path (src/combine/irc.py)

`Client.send` checks for a newline in the message (raising
`ValueError('cannot send messages with newlines')`) and otherwise writes
a `PRIVMSG` line under the write lock.  It is *not* wrapped by the
`_check_running` decorator; only `_pong`, `_privmsg` and `_ignore` are.
`Client.stop` merely clears the `_running` flag and returns.  The socket
is modelled as the ordered list of raw lines written so far. -/

/-- Failures of client operations: `ValueError('cannot send messages
with newlines')` and `ValueError('operation on closed client')`. -/
inductive IrcError
  | invalidMessage
  | closedClient
  deriving DecidableEq

/-- The client state visible to the claims: the `_running` flag and the
lines written to the socket so far. -/
structure ClientState where
  running : Bool
  sentLines : List String
  deriving DecidableEq

/-- The raw line `Client.send` writes for a private message. -/
def privmsgLine (user message : String) : String :=
  "PRIVMSG " ++ user ++ " " ++ message

/-- `Client.send(user, message)`: refuse messages containing a newline,
otherwise append the `PRIVMSG` line to the socket.  There is no
`_running` check on this method in the source. -/
def ClientState.send (c : ClientState) (user message : String) :
    Except IrcError ClientState :=
  if '\n' ∈ message.data then Except.error IrcError.invalidMessage
  else Except.ok { c with sentLines := c.sentLines ++ [privmsgLine user message] }

/-- `Client.stop()`: clear the running flag; nothing else happens, so the
operation cannot block. -/
def ClientState.stop (c : ClientState) : ClientState :=
  { c with running := false }

/-- `Client._pong(data)`: guarded by `_check_running`, then writes the
`PONG` line under the write lock. -/
def ClientState.pong (c : ClientState) (data : String) :
    Except IrcError ClientState :=
  if c.running = false then Except.error IrcError.closedClient
  else Except.ok { c with sentLines := c.sentLines ++ ["PONG " ++ data] }

/-- `Client._privmsg(channel, user, msg)`: guarded by `_check_running`;
on a running client it only spawns a handler thread, writing nothing
itself. -/
def ClientState.privmsg (c : ClientState) (_channel _user _msg : String) :
    Except IrcError ClientState :=
  if c.running = false then Except.error IrcError.closedClient
  else Except.ok c

end Combine

namespace Combine

/-! ### C8 — expiring cache set/get round trip -/

/-- C8: after `set(u, v, t)`, a `get(u)` strictly before time `t`
returns `v`, and a `get(u)` strictly after time `t` is a miss (the key
is reported absent). -/
theorem expiring_cache_set_get {κ ν : Type} [DecidableEq κ]
    (c : ExpiringCache κ ν) (u : κ) (v : ν) (t now : ℚ) :
    (now < t → (c.set u v t).get now u = some v) ∧
    (t < now → (c.set u v t).get now u = none) := by
  have he : (c.set u v t).entries u = some (v, t) := by
    simp [ExpiringCache.set]
  constructor
  · intro h
    simp [ExpiringCache.get, he, not_le.mpr h]
  · intro h
    simp [ExpiringCache.get, he, le_of_lt h]

/-- Witness for C8 at a concrete cache, key, value and times. -/
theorem expiring_cache_set_get_witness :
    (((3 : ℚ) < 10 →
        ((ExpiringCache.empty ℕ ℕ).set 1 7 10).get 3 1 = some 7) ∧
      ((10 : ℚ) < 12 →
        ((ExpiringCache.empty ℕ ℕ).set 1 7 10).get 12 1 = none)) ∧
    ((ExpiringCache.empty ℕ ℕ).set 1 7 10).get 3 1 = some 7 ∧
    ((ExpiringCache.empty ℕ ℕ).set 1 7 10).get 12 1 = none := by
  refine ⟨⟨?_, ?_⟩, ?_, ?_⟩
  · exact fun _ =>
      (expiring_cache_set_get (ExpiringCache.empty ℕ ℕ) 1 7 10 3).1 (by norm_num)
  · exact fun _ =>
      (expiring_cache_set_get (ExpiringCache.empty ℕ ℕ) 1 7 10 12).2 (by norm_num)
  · exact (expiring_cache_set_get (ExpiringCache.empty ℕ ℕ) 1 7 10 3).1 (by norm_num)
  · exact (expiring_cache_set_get (ExpiringCache.empty ℕ ℕ) 1 7 10 12).2 (by norm_num)

/-! ### C9 — token round trip -/

/-- C9: a token issued for `user` verifies to exactly `user` at any time
strictly before its expiry (which defaults to twelve hours after
issuance when no expiry is supplied), is rejected as expired at any time
strictly after the expiry, and any payload that does not decrypt under
the secret is rejected without being trusted. -/
theorem token_roundtrip (secret : ℕ) (user : String) (now tv : ℚ)
    (e : Option ℚ) :
    (tv < e.getD (now + 12) →
      verifyToken secret tv (gen_token secret user now e) = Except.ok user) ∧
    (e.getD (now + 12) < tv →
      verifyToken secret tv (gen_token secret user now e) =
        Except.error VerifyError.expiredToken) ∧
    fernetDecrypt secret (gen_token secret user now none) =
      some { issued := now, expires := now + 12, user := user } ∧
    (∀ ct, fernetDecrypt secret ct = none →
      verifyToken secret tv ct = Except.error VerifyError.decodeFailure) := by
  refine ⟨?_, ?_, ?_, ?_⟩
  · intro h
    have hnot : ¬ e.getD (now + 12) < tv := not_lt.mpr (le_of_lt h)
    simp [verifyToken, gen_token, fernetDecrypt, hnot]
  · intro h
    simp [verifyToken, gen_token, fernetDecrypt, h]
  · simp [gen_token, fernetDecrypt]
  · intro ct hct
    simp [verifyToken, hct]

/-- Witness for C9 at a concrete secret, user and times. -/
theorem token_roundtrip_witness :
    ((5 : ℚ) < (Option.none : Option ℚ).getD (0 + 12) →
      verifyToken 42 5 (gen_token 42 "alice" 0 none) = Except.ok "alice") ∧
    verifyToken 42 5 (gen_token 42 "alice" 0 none) = Except.ok "alice" ∧
    verifyToken 42 13 (gen_token 42 "alice" 0 none) =
      Except.error VerifyError.expiredToken ∧
    verifyToken 42 5 (Ciphertext.garbage 0) =
      Except.error VerifyError.decodeFailure := by
  refine ⟨?_, ?_, ?_, ?_⟩
  · exact fun _ => (token_roundtrip 42 "alice" 0 5 none).1 (by norm_num [Option.getD])
  · exact (token_roundtrip 42 "alice" 0 5 none).1 (by norm_num [Option.getD])
  · exact (token_roundtrip 42 "alice" 0 13 none).2.1 (by norm_num [Option.getD])
  · exact (token_roundtrip 42 "alice" 0 5 none).2.2.2 (Ciphertext.garbage 0) rfl

/-! ### C2 — send after stop

The claim says that after `stop()` every `send` fails with the
closed-connection error and writes nothing.  In the source only the
receive-loop operations (`_pong`, `_privmsg`, `_ignore`) carry the
`_check_running` guard; `Client.send` does not, so a `send` on a stopped
client still writes to the socket. -/

/-- C2 counterexample: on a freshly stopped client, `send` succeeds and
writes the `PRIVMSG` line to the socket, contradicting the claim that it
fails with the closed-connection error and writes nothing. -/
theorem send_after_stop_counterexample :
    (ClientState.mk true []).stop.send "u" "hi" =
      Except.ok (ClientState.mk false ["PRIVMSG u hi"]) ∧
    ∀ e, (ClientState.mk true []).stop.send "u" "hi" ≠ Except.error e := by
  have hmem : '\n' ∉ "hi".data := by decide
  have hsend : (ClientState.mk true []).stop.send "u" "hi" =
      Except.ok (ClientState.mk false ["PRIVMSG u hi"]) := by
    unfold ClientState.send ClientState.stop
    rw [if_neg hmem, show privmsgLine "u" "hi" = "PRIVMSG u hi" from by decide]
    rfl
  refine ⟨hsend, fun e h => ?_⟩
  rw [hsend] at h
  exact Except.noConfusion h

/-- C2 amended: `stop()` only clears the running flag (so it cannot
block); after `stop()` the guarded receive-loop operations `_pong` and
`_privmsg` fail with the closed-client error and write nothing, while
`send` is unaffected: for any newline-free message it still succeeds and
writes the `PRIVMSG` line to the socket. -/
theorem stop_semantics (c : ClientState) (user msg channel data : String)
    (h : '\n' ∉ msg.data) :
    c.stop = ClientState.mk false c.sentLines ∧
    c.stop.pong data = Except.error IrcError.closedClient ∧
    c.stop.privmsg channel user msg = Except.error IrcError.closedClient ∧
    c.stop.send user msg =
      Except.ok (ClientState.mk false (c.sentLines ++ [privmsgLine user msg])) := by
  refine ⟨rfl, rfl, rfl, ?_⟩
  unfold ClientState.send ClientState.stop
  rw [if_neg h]

/-- Witness for C2's amended theorem at a concrete client and message. -/
theorem stop_semantics_witness :
    ('\n' ∉ "hi".data) ∧
    (ClientState.mk true []).stop.pong "x" = Except.error IrcError.closedClient ∧
    (ClientState.mk true []).stop.send "u" "hi" =
      Except.ok (ClientState.mk false [privmsgLine "u" "hi"]) := by
  have h : '\n' ∉ "hi".data := by decide
  refine ⟨h, ?_, ?_⟩
  · exact (stop_semantics (ClientState.mk true []) "u" "hi" "c" "x" h).2.1
  · exact (stop_semantics (ClientState.mk true []) "u" "hi" "c" "x" h).2.2.2

end Combine

namespace Combine

/-! ## Training queue (src/combine/train.py)

The queue is a sqlite table with columns
`(user, age, status, insert_time, reported)`.  We model the table as a
list of rows whose position is the sqlite rowid (the source's rowids are
1-based; the shift is immaterial).  `enqueue_job` appends a
`not_started` row storing `str(age)` — note the Python `str` call, which
renders `None` as the string `'None'`.  `get_job` selects the oldest
`not_started` row (`order by insert_time limit 1`) without mutating
anything.  `get_completed_jobs` reads every unreported terminal row,
marks it reported, and returns the (user, status) pairs.
`update_status` rewrites the status of one rowid. -/

/-- Job states (`combine.train.Status`). -/
inductive Status
  | not_started
  | running
  | failed
  | success
  deriving DecidableEq

/-- `status == Status.success.value or status == Status.failed.value`,
the terminal-state test of `get_completed_jobs`. -/
def isTerminal (st : Status) : Bool :=
  decide (st = Status.success) || decide (st = Status.failed)

/-- One row of the `queue` table. -/
structure Row where
  user : String
  age : String
  status : Status
  insertTime : ℕ
  reported : Bool
  deriving DecidableEq

/-- The persisted queue: rows indexed by rowid. -/
structure TrainQueue where
  rows : List Row
  deriving DecidableEq

/-- Python `str(datetime.timedelta(days=d))`. -/
def strTimedeltaDays (d : ℕ) : String :=
  if d = 1 then "1 day, 0:00:00" else toString d ++ " days, 0:00:00"

/-- Python `str(age)` for `age : datetime.timedelta or None`: `None`
renders as the string `'None'`. -/
def pyStrAge : Option ℕ → String
  | none => "None"
  | some d => strTimedeltaDays d

/-- `TrainQueue.enqueue_job(user, age)`: insert a `not_started`,
unreported row holding `str(age)` at the current time. -/
def TrainQueue.enqueue_job (q : TrainQueue) (user : String) (age : Option ℕ)
    (now : ℕ) : TrainQueue :=
  ⟨q.rows ++ [⟨user, pyStrAge age, Status.not_started, now, false⟩]⟩

/-- The rows matching `status = 'not started'`, with their rowids. -/
def notStartedEntries (q : TrainQueue) : List (ℕ × Row) :=
  q.rows.enum.filter fun e => decide (e.2.status = Status.not_started)

/-- `order by insert_time limit 1` over a candidate row set: keep the
row with the smallest insertion time, earliest rowid winning ties. -/
def selectOldest : List (ℕ × Row) → Option (ℕ × Row)
  | [] => none
  | x :: xs =>
    some (xs.foldl (fun best e =>
      if e.2.insertTime < best.2.insertTime then e else best) x)

/-- `TrainQueue.get_job()`: the `(rowid, user, age)` of the oldest
`not_started` row; `Except.error ()` models raising `TrainQueue.Empty`. -/
def TrainQueue.get_job (q : TrainQueue) : Except Unit (ℕ × String × String) :=
  match selectOldest (notStartedEntries q) with
  | none => Except.error ()
  | some e => Except.ok (e.1, e.2.user, e.2.age)

/-- The rows matching `not reported and (status == success or status ==
failed)`, with their rowids. -/
def completedEntries (q : TrainQueue) : List (ℕ × Row) :=
  q.rows.enum.filter fun e => !e.2.reported && isTerminal e.2.status

/-- `TrainQueue.get_completed_jobs()`: return the (user, status) pair of
every unreported terminal row and set each such row's reported flag. -/
def TrainQueue.get_completed_jobs (q : TrainQueue) :
    List (String × Status) × TrainQueue :=
  ((completedEntries q).map fun e => (e.2.user, e.2.status),
   ⟨q.rows.map fun r =>
     if !r.reported && isTerminal r.status then
       { r with reported := true }
     else r⟩)

/-- `TrainQueue.update_status(rowid, status)`. -/
def TrainQueue.update_status (q : TrainQueue) (rowid : ℕ) (st : Status) :
    TrainQueue :=
  ⟨q.rows.enum.map fun e =>
    if e.1 = rowid then { e.2 with status := st } else e.2⟩

/-- The queue operations available to the two processes that share the
database (the uploader, the worker loop and the periodic reporter). -/
inductive QueueOp
  | enqueue (user : String) (age : Option ℕ) (now : ℕ)
  | updateStatus (rowid : ℕ) (st : Status)
  | dequeue
  | pollCompleted

/-- The state transition of each queue operation (`get_job` reads
without writing). -/
def stepOp (q : TrainQueue) : QueueOp → TrainQueue
  | QueueOp.enqueue u a t => q.enqueue_job u a t
  | QueueOp.updateStatus i st => q.update_status i st
  | QueueOp.dequeue => q
  | QueueOp.pollCompleted => q.get_completed_jobs.2

/-- Run a sequence of queue operations. -/
def runOps (q : TrainQueue) (ops : List QueueOp) : TrainQueue :=
  ops.foldl stepOp q

/-- The argument vector built by `_run_train_job`; `sys.executable` and
the runner module name are fixed.  The `age_str` parameter is the Python
value passed in, which could only be `None` if the database returned
NULL for the `age` column. -/
def buildTrainArgs (user : String) (age_str : Option String)
    (replayCacheDir modelCacheDir libraryPath apiKey : String) : List String :=
  let args := ["python", "-m", "combine._train_runner",
    "--user", user,
    "--replay-cache-dir", replayCacheDir,
    "--model-cache-dir", modelCacheDir,
    "--library", libraryPath,
    "--api-key", apiKey]
  match age_str with
  | some s => args ++ ["--age", s]
  | none => args

/-- The subprocess arguments one `run_train_queue` iteration passes for
the dequeued job: the age string read from the database is a `str`, so
the worker always hands `_run_train_job` a non-`None` value. -/
def workerArgs (q : TrainQueue)
    (replayCacheDir modelCacheDir libraryPath apiKey : String) :
    Option (List String) :=
  match q.get_job with
  | Except.error _ => none
  | Except.ok (_, user, agestr) =>
    some (buildTrainArgs user (some agestr)
      replayCacheDir modelCacheDir libraryPath apiKey)

/-- Filtering a list of enumerated pairs on the element and projecting
the element commutes with dropping the indices. -/
theorem enum_filter_snd_map {α β : Type} (l : List α) (p : α → Bool)
    (g : α → β) :
    ((l.enum.filter fun e => p e.2).map fun e => g e.2) =
      (l.filter p).map g := by
  have h1 : (fun e : ℕ × α => p e.2) = p ∘ Prod.snd := rfl
  have h2 : (fun e : ℕ × α => g e.2) = g ∘ Prod.snd := rfl
  rw [h1, h2, ← List.map_map, ← List.filter_map, List.enum_map_snd]

/-- Every queue operation leaves an already-reported row in place with
its reported flag still set. -/
theorem reported_preserved_step (q : TrainQueue) (op : QueueOp) (i : ℕ)
    (r : Row) (hget : q.rows[i]? = some r) (hrep : r.reported = true) :
    ∃ r2 : Row, (stepOp q op).rows[i]? = some r2 ∧ r2.reported = true := by
  have hlen : i < q.rows.length := by
    rcases List.getElem?_eq_some.mp hget with ⟨h, _⟩
    exact h
  cases op with
  | enqueue u a t =>
    refine ⟨r, ?_, hrep⟩
    simp only [stepOp, TrainQueue.enqueue_job, List.getElem?_append, if_pos hlen]
    exact hget
  | updateStatus j st =>
    have henum : q.rows.enum[i]? = some (i, r) := by
      rw [List.getElem?_enum, hget]
      rfl
    refine ⟨if i = j then { r with status := st } else r, ?_, ?_⟩
    · simp only [stepOp, TrainQueue.update_status, List.getElem?_map, henum]
      rfl
    · by_cases h : i = j <;> simp [h, hrep]
  | dequeue => exact ⟨r, hget, hrep⟩
  | pollCompleted =>
    refine ⟨if !r.reported && isTerminal r.status then
      { r with reported := true } else r, ?_, ?_⟩
    · simp only [stepOp, TrainQueue.get_completed_jobs, List.getElem?_map, hget]
      rfl
    · simp [hrep]

/-- An already-reported row stays reported across any sequence of queue
operations. -/
theorem reported_preserved_runOps (q : TrainQueue) (ops : List QueueOp)
    (i : ℕ) (r : Row) (hget : q.rows[i]? = some r) (hrep : r.reported = true) :
    ∃ r2 : Row, (runOps q ops).rows[i]? = some r2 ∧ r2.reported = true := by
  induction ops generalizing q r with
  | nil => exact ⟨r, hget, hrep⟩
  | cons op ops ih =>
    obtain ⟨r2, h2, hr2⟩ := reported_preserved_step q op i r hget hrep
    exact ih (stepOp q op) r2 h2 hr2

end Combine

namespace Combine

/-- The fold inside `selectOldest` returns an element of the candidate
set whose insertion time is minimal (earliest listed winning ties). -/
theorem foldl_oldest_spec (xs : List (ℕ × Row)) (x : ℕ × Row) :
    xs.foldl (fun best e =>
      if e.2.insertTime < best.2.insertTime then e else best) x ∈ x :: xs ∧
    (xs.foldl (fun best e =>
      if e.2.insertTime < best.2.insertTime then e else best) x).2.insertTime ≤
        x.2.insertTime ∧
    ∀ y ∈ xs, (xs.foldl (fun best e =>
      if e.2.insertTime < best.2.insertTime then e else best) x).2.insertTime ≤
        y.2.insertTime := by
  induction xs generalizing x with
  | nil =>
    refine ⟨List.mem_cons_self x [], le_refl _, ?_⟩
    intro y hy
    cases hy
  | cons y ys ih =>
    simp only [List.foldl_cons]
    by_cases hcond : y.2.insertTime < x.2.insertTime
    · rw [if_pos hcond]
      obtain ⟨hmem, hle, hall⟩ := ih y
      refine ⟨List.mem_cons_of_mem _ hmem, le_trans hle (le_of_lt hcond), ?_⟩
      intro z hz
      rcases List.mem_cons.mp hz with h | h
      · rw [h]
        exact hle
      · exact hall z h
    · rw [if_neg hcond]
      obtain ⟨hmem, hle, hall⟩ := ih x
      refine ⟨?_, hle, ?_⟩
      · rcases List.mem_cons.mp hmem with h | h
        · rw [h]
          exact List.mem_cons_self x (y :: ys)
        · exact List.mem_cons_of_mem _ (List.mem_cons_of_mem _ h)
      · intro z hz
        rcases List.mem_cons.mp hz with h | h
        · rw [h]
          exact le_trans hle (not_lt.mp hcond)
        · exact hall z h

/-- C7: `get_job` raises `Empty` exactly when the queue holds no
`not_started` row; otherwise it returns the rowid, user and age of the
single oldest `not_started` row by insertion time (assuming distinct
insertion times among the `not_started` rows), and the call leaves the
queue rows unchanged. -/
theorem get_job_spec (q : TrainQueue)
    (hdistinct : ∀ (i j : ℕ) (ri rj : Row),
      q.rows[i]? = some ri → q.rows[j]? = some rj →
      ri.status = Status.not_started → rj.status = Status.not_started →
      i ≠ j → ri.insertTime ≠ rj.insertTime) :
    (q.get_job = Except.error () ↔
      ∀ r ∈ q.rows, r.status ≠ Status.not_started) ∧
    (∀ i u a, q.get_job = Except.ok (i, u, a) →
      ∃ r, q.rows[i]? = some r ∧ r.status = Status.not_started ∧
        u = r.user ∧ a = r.age ∧
        ∀ j rj, q.rows[j]? = some rj → rj.status = Status.not_started →
          j ≠ i → r.insertTime < rj.insertTime) ∧
    stepOp q QueueOp.dequeue = q := by
  have hnil : notStartedEntries q = [] ↔
      ∀ r ∈ q.rows, r.status ≠ Status.not_started := by
    unfold notStartedEntries
    rw [List.filter_eq_nil_iff]
    constructor
    · intro h r hr hstatus
      obtain ⟨n, hn⟩ := List.mem_iff_getElem?.mp hr
      have hmem : (n, r) ∈ q.rows.enum := List.mem_enum_iff_getElem?.mpr hn
      have := h (n, r) hmem
      simp [hstatus] at this
    · intro h e he
      have hget := List.mem_enum_iff_getElem?.mp he
      have hmem : e.2 ∈ q.rows := List.mem_iff_getElem?.mpr ⟨e.1, hget⟩
      simp [h e.2 hmem]
  refine ⟨?_, ?_, rfl⟩
  · unfold TrainQueue.get_job
    cases hent : notStartedEntries q with
    | nil =>
      simp only [selectOldest]
      exact ⟨fun _ => hnil.mp hent, fun _ => trivial⟩
    | cons x xs =>
      simp only [selectOldest]
      constructor
      · intro h
        cases h
      · intro h
        have : notStartedEntries q = [] := hnil.mpr h
        rw [hent] at this
        cases this
  · intro i u a hok
    unfold TrainQueue.get_job at hok
    cases hent : notStartedEntries q with
    | nil =>
      rw [hent] at hok
      simp only [selectOldest] at hok
      cases hok
    | cons x xs =>
      rw [hent] at hok
      simp only [selectOldest] at hok
      set e := xs.foldl (fun best e =>
        if e.2.insertTime < best.2.insertTime then e else best) x with hedef
      have hinj : e.1 = i ∧ e.2.user = u ∧ e.2.age = a := by
        cases hok
        exact ⟨rfl, rfl, rfl⟩
      obtain ⟨hmem, hlex, hall⟩ := foldl_oldest_spec xs x
      rw [← hedef] at hmem hlex hall
      have hments : e ∈ notStartedEntries q := by
        rw [hent]
        exact hmem
      have hfe := List.mem_filter.mp hments
      have hgete : q.rows[e.1]? = some e.2 :=
        List.mem_enum_iff_getElem?.mp hfe.1
      have hstate : e.2.status = Status.not_started := by
        have := hfe.2
        simpa using this
      have hmin : ∀ y ∈ notStartedEntries q,
          e.2.insertTime ≤ y.2.insertTime := by
        intro y hy
        rw [hent] at hy
        rcases List.mem_cons.mp hy with h | h
        · rw [h]
          exact hlex
        · exact hall y h
      refine ⟨e.2, ?_, hstate, ?_, ?_, ?_⟩
      · rw [← hinj.1]
        exact hgete
      · exact hinj.2.1.symm
      · exact hinj.2.2.symm
      · intro j rj hgetj hstatj hne
        have hyents : (j, rj) ∈ notStartedEntries q := by
          unfold notStartedEntries
          refine List.mem_filter.mpr ⟨List.mem_enum_iff_getElem?.mpr hgetj, ?_⟩
          simp [hstatj]
        have hle := hmin (j, rj) hyents
        have hneq : e.2.insertTime ≠ rj.insertTime := by
          refine hdistinct e.1 j e.2 rj hgete hgetj hstate hstatj ?_
          rw [hinj.1]
          exact fun hij => hne hij.symm
        exact lt_of_le_of_ne hle hneq

/-- Witness for C7 on a one-job queue and on the empty queue. -/
theorem get_job_spec_witness :
    ((TrainQueue.mk []).get_job = Except.error ()) ∧
    (∃ r, (TrainQueue.mk
        [⟨"a", "None", Status.not_started, 5, false⟩]).rows[0]? = some r ∧
      r.status = Status.not_started ∧ "a" = r.user ∧ "None" = r.age ∧
      ∀ j rj, (TrainQueue.mk
          [⟨"a", "None", Status.not_started, 5, false⟩]).rows[j]? = some rj →
        rj.status = Status.not_started → j ≠ 0 →
        r.insertTime < rj.insertTime) := by
  constructor
  · refine ((get_job_spec (TrainQueue.mk []) ?_).1).mpr ?_
    · intro i j ri rj hi hj
      simp at hi
    · intro r hr
      cases hr
  · refine (get_job_spec
      (TrainQueue.mk [⟨"a", "None", Status.not_started, 5, false⟩]) ?_).2.1
      0 "a" "None" rfl
    intro i j ri rj hi hj hsi hsj hne
    cases i with
    | zero =>
      cases j with
      | zero => exact absurd rfl hne
      | succ j => simp at hj
    | succ i => simp at hi

end Combine

namespace Combine

/-- C5: `get_completed_jobs` returns the (user, status) pair of every
job in a terminal state whose reported flag is unset, sets the reported
flag of each such job, and since no queue operation ever clears a
reported flag, a job returned by one call is never returned by any later
call, whatever operations happen in between. -/
theorem poll_completed_exactly_once (q : TrainQueue) :
    q.get_completed_jobs.1 =
      (q.rows.filter fun r => !r.reported && isTerminal r.status).map
        (fun r => (r.user, r.status)) ∧
    (∀ (i : ℕ) (r : Row), q.rows[i]? = some r →
      (!r.reported && isTerminal r.status) = true →
      q.get_completed_jobs.2.rows[i]? = some { r with reported := true }) ∧
    (∀ (ops : List QueueOp) (i : ℕ) (r : Row), q.rows[i]? = some r →
      (!r.reported && isTerminal r.status) = true →
      ∀ e ∈ completedEntries (runOps q.get_completed_jobs.2 ops), e.1 ≠ i) := by
  have hmark : ∀ (i : ℕ) (r : Row), q.rows[i]? = some r →
      (!r.reported && isTerminal r.status) = true →
      q.get_completed_jobs.2.rows[i]? = some { r with reported := true } := by
    intro i r hget hcond
    have hr : q.get_completed_jobs.2.rows = q.rows.map fun r =>
        if !r.reported && isTerminal r.status then
          { r with reported := true }
        else r := rfl
    rw [hr, List.getElem?_map, hget]
    exact congrArg some (if_pos hcond)
  refine ⟨?_, hmark, ?_⟩
  · show ((completedEntries q).map fun e => (e.2.user, e.2.status)) = _
    unfold completedEntries
    exact enum_filter_snd_map q.rows
      (fun r => !r.reported && isTerminal r.status) (fun r => (r.user, r.status))
  · intro ops i r hget hcond e he heq
    obtain ⟨r2, hr2get, hr2rep⟩ := reported_preserved_runOps
      q.get_completed_jobs.2 ops i { r with reported := true }
      (hmark i r hget hcond) rfl
    have hmemf := List.mem_filter.mp he
    have hgetE : (runOps q.get_completed_jobs.2 ops).rows[e.1]? = some e.2 :=
      List.mem_enum_iff_getElem?.mp hmemf.1
    rw [heq, hr2get] at hgetE
    have he2 : r2 = e.2 := Option.some.inj hgetE
    have hpred := hmemf.2
    rw [← he2, hr2rep] at hpred
    simp at hpred

/-- Witness for C5 on a queue holding one unreported successful job. -/
theorem poll_completed_exactly_once_witness :
    (TrainQueue.mk
        [⟨"alice", "None", Status.success, 0, false⟩]).get_completed_jobs.1 =
      [("alice", Status.success)] ∧
    ∀ e ∈ completedEntries (runOps
        (TrainQueue.mk
          [⟨"alice", "None", Status.success, 0, false⟩]).get_completed_jobs.2
        [QueueOp.pollCompleted]),
      e.1 ≠ 0 := by
  constructor
  · rw [(poll_completed_exactly_once
      (TrainQueue.mk [⟨"alice", "None", Status.success, 0, false⟩])).1]
    rfl
  · exact (poll_completed_exactly_once
      (TrainQueue.mk [⟨"alice", "None", Status.success, 0, false⟩])).2.2
      [QueueOp.pollCompleted] 0 ⟨"alice", "None", Status.success, 0, false⟩
      rfl (by decide)

/-- `--age` is always in the argument vector built for a present age
string. -/
theorem age_mem_buildTrainArgs (u s rd md lib key : String) :
    "--age" ∈ buildTrainArgs u (some s) rd md lib key :=
  List.mem_append_right _ (List.mem_cons_self _ _)

/-- C10: `enqueue_job` stores `str(age)` — the four-character string
`'None'` when `age is None` — `get_job` hands that string back, and the
worker therefore always passes `--age` to the training subprocess, since
the age string read from the database is never the Python `None`. -/
theorem age_roundtrip_stringified (q : TrainQueue) (user : String)
    (age : Option ℕ) (now : ℕ) (rd md lib key : String) :
    pyStrAge none = "None" ∧
    (pyStrAge none).length = 4 ∧
    (q.enqueue_job user age now).rows.getLast? =
      some ⟨user, pyStrAge age, Status.not_started, now, false⟩ ∧
    ((TrainQueue.mk []).enqueue_job user age now).get_job =
      Except.ok (0, user, pyStrAge age) ∧
    (∀ (q2 : TrainQueue) (args : List String),
      workerArgs q2 rd md lib key = some args → "--age" ∈ args) := by
  refine ⟨rfl, rfl, ?_, rfl, ?_⟩
  · exact List.getLast?_concat _
  · intro q2 args h
    unfold workerArgs at h
    cases hj : q2.get_job with
    | error e =>
      rw [hj] at h
      exact absurd h (by simp)
    | ok v =>
      obtain ⟨i, u, s⟩ := v
      rw [hj] at h
      simp only [Option.some.injEq] at h
      rw [← h]
      exact age_mem_buildTrainArgs u s rd md lib key

/-- Witness for C10 on a concrete one-job queue. -/
theorem age_roundtrip_stringified_witness :
    ((TrainQueue.mk []).enqueue_job "bob" none 3).get_job =
      Except.ok (0, "bob", pyStrAge none) ∧
    "--age" ∈ buildTrainArgs "bob" (some "None") "r" "m" "l" "k" := by
  constructor
  · exact (age_roundtrip_stringified (TrainQueue.mk []) "bob" none 3
      "r" "m" "l" "k").2.2.2.1
  · exact (age_roundtrip_stringified (TrainQueue.mk []) "bob" none 3
      "r" "m" "l" "k").2.2.2.2
      (TrainQueue.mk [⟨"bob", "None", Status.not_started, 3, false⟩])
      (buildTrainArgs "bob" (some "None") "r" "m" "l" "k") rfl

end Combine

namespace Combine

/-! ## Prediction & filter engine (src/combine/handler.py)

`CombineHandler._mods` maps the four toggleable options to display
names; we use an enumeration for the four keys.  `powerset` is
`chain.from_iterable(combinations(values, n) for n in range(len(values)
+ 1))`; `_mod_powerset` is the power set of the option keys.
`_predict` filters the power set to the subsets consistent with the
pinned-on and pinned-off sets, builds the boolean mask
`{k: (k in mods) for k in all_mods}` for each, and returns
`(mask, model.predict(beatmap, **mask))` pairs; if any prediction
raises, the whole call yields `[]`.  Masks are modelled as functions
from options to booleans (the dict has a fixed key set), the pinned
sets as boolean predicates, and a possibly failing model as an
`Option`-valued function. -/

/-- The four toggleable options of `CombineHandler._mods`. -/
inductive Mod4
  | hard_rock
  | double_time
  | half_time
  | hidden
  deriving DecidableEq, Fintype

/-- The option keys in dict order. -/
def allMods : List Mod4 :=
  [Mod4.hard_rock, Mod4.double_time, Mod4.half_time, Mod4.hidden]

/-- `itertools.combinations(values, n)`: all length-`n` sublists in
source order. -/
def combinations {α : Type} : ℕ → List α → List (List α)
  | 0, _ => [[]]
  | _ + 1, [] => []
  | n + 1, x :: xs =>
    ((combinations n xs).map fun c => x :: c) ++ combinations (n + 1) xs

/-- `combine.handler.powerset`. -/
def powerset {α : Type} (values : List α) : List (List α) :=
  (List.range (values.length + 1)).flatMap fun n => combinations n values

/-- `CombineHandler._mod_powerset`. -/
def modPowerset : List (List Mod4) := powerset allMods

/-- The option mask `{k: (k in mods) for k in all_mods}` of one subset. -/
def maskOf (mods : List Mod4) : Mod4 → Bool := fun k => decide (k ∈ mods)

/-- The pin filter of `_predict`: `all(k in mods for k in with_mods) and
not any(k in mods for k in without_mods)`. -/
def consistentB (w wo : Mod4 → Bool) (mods : List Mod4) : Bool :=
  ((allMods.filter w).all fun k => decide (k ∈ mods)) &&
  !((allMods.filter wo).any fun k => decide (k ∈ mods))

/-- The mask generator of `_predict`: masks of the pin-consistent
subsets of the option power set. -/
def predictMasks (w wo : Mod4 → Bool) : List (Mod4 → Bool) :=
  (modPowerset.filter (consistentB w wo)).map maskOf

/-- `lain.ErrorModel.predict` output
(`Prediction{score_mean, score_std, accuracy_mean, accuracy_std}`);
floats are modelled as exact rationals. -/
structure Prediction where
  pp_mean : ℚ
  pp_std : ℚ
  accuracy_mean : ℚ
  accuracy_std : ℚ
  deriving DecidableEq

/-- The list comprehension inside `_predict`'s `try`: one prediction per
mask, aborting the whole batch on the first failure. -/
def predictList (model : (Mod4 → Bool) → Option Prediction) :
    List (Mod4 → Bool) → Option (List ((Mod4 → Bool) × Prediction))
  | [] => some []
  | m :: ms =>
    match model m with
    | none => none
    | some p =>
      match predictList model ms with
      | none => none
      | some rest => some ((m, p) :: rest)

/-- `CombineHandler._predict` for one item: the `(mask, prediction)`
pairs over the pin-consistent power set, or `[]` when the model raised
on some mask. -/
def combinePredict (model : (Mod4 → Bool) → Option Prediction)
    (w wo : Mod4 → Bool) : List ((Mod4 → Bool) × Prediction) :=
  match predictList model (predictMasks w wo) with
  | some l => l
  | none => []

/-- When the model succeeds on every mask, the prediction batch succeeds
and carries exactly the requested masks in order. -/
theorem predictList_of_isSome (model : (Mod4 → Bool) → Option Prediction)
    (h : ∀ m, (model m).isSome = true) :
    ∀ ms, ∃ l, predictList model ms = some l ∧ l.map Prod.fst = ms := by
  intro ms
  induction ms with
  | nil => exact ⟨[], rfl, rfl⟩
  | cons m ms ih =>
    obtain ⟨l, hl, hmap⟩ := ih
    obtain ⟨p, hp⟩ := Option.isSome_iff_exists.mp (h m)
    refine ⟨(m, p) :: l, ?_, ?_⟩
    · unfold predictList
      rw [hp, hl]
    · simp [hmap]

set_option maxHeartbeats 1000000 in
/-- Every mask produced by the pin-consistent power set respects the
pins. -/
theorem mask_pins_respected : ∀ (w wo : Mod4 → Bool),
    ∀ m ∈ predictMasks w wo,
    (∀ k, w k = true → m k = true) ∧ (∀ k, wo k = true → m k = false) := by
  decide

set_option maxHeartbeats 1000000 in
/-- The pin-consistent power set contains each pin-respecting mask
exactly once, and no other mask. -/
theorem mask_count_spec : ∀ (w wo m : Mod4 → Bool),
    (predictMasks w wo).countP (fun x => decide (x = m)) =
      if (∀ k, w k = true → m k = true) ∧ (∀ k, wo k = true → m k = false)
      then 1 else 0 := by
  decide

/-- C3: for disjoint pinned-on and pinned-off option sets and a model
that predicts every mask, `_predict` returns masks that assign true to
every pinned-on option and false to every pinned-off option, and it
returns exactly one (mask, prediction) pair for each mask in the full
option power set restricted by the two pin constraints — no other mask,
none twice. -/
theorem predict_engine_power_set
    (model : (Mod4 → Bool) → Option Prediction) (w wo : Mod4 → Bool)
    (_hdisj : ∀ k, ¬(w k = true ∧ wo k = true))
    (hok : ∀ m, (model m).isSome = true) :
    (∀ pr ∈ combinePredict model w wo,
      (∀ k, w k = true → pr.1 k = true) ∧
      (∀ k, wo k = true → pr.1 k = false)) ∧
    (∀ m : Mod4 → Bool,
      ((combinePredict model w wo).map Prod.fst).countP
          (fun x => decide (x = m)) =
        if (∀ k, w k = true → m k = true) ∧ (∀ k, wo k = true → m k = false)
        then 1 else 0) := by
  obtain ⟨l, hl, hmap⟩ := predictList_of_isSome model hok (predictMasks w wo)
  have hcp : combinePredict model w wo = l := by
    unfold combinePredict
    rw [hl]
  constructor
  · intro pr hpr
    have hm : pr.1 ∈ predictMasks w wo := by
      rw [← hmap]
      exact List.mem_map_of_mem Prod.fst (hcp ▸ hpr)
    exact mask_pins_respected w wo pr.1 hm
  · intro m
    rw [hcp, hmap]
    exact mask_count_spec w wo m

/-- Witness for C3: pin hard rock on and hidden off with an
always-succeeding model. -/
theorem predict_engine_power_set_witness :
    (∀ pr ∈ combinePredict (fun _ => some ⟨0, 0, 0, 0⟩)
        (fun k => decide (k = Mod4.hard_rock))
        (fun k => decide (k = Mod4.hidden)),
      (∀ k, decide (k = Mod4.hard_rock) = true → pr.1 k = true) ∧
      (∀ k, decide (k = Mod4.hidden) = true → pr.1 k = false)) ∧
    ((combinePredict (fun _ => some ⟨0, 0, 0, 0⟩)
        (fun k => decide (k = Mod4.hard_rock))
        (fun k => decide (k = Mod4.hidden))).map Prod.fst).countP
      (fun x => decide (x = maskOf [Mod4.hard_rock])) = 1 := by
  have h := predict_engine_power_set (fun _ => some ⟨0, 0, 0, 0⟩)
    (fun k => decide (k = Mod4.hard_rock))
    (fun k => decide (k = Mod4.hidden))
    (by decide) (fun m => rfl)
  refine ⟨h.1, ?_⟩
  rw [h.2 (maskOf [Mod4.hard_rock])]
  decide

end Combine

namespace Combine

/-! ## Recommendation loop (src/combine/handler.py, `recommend`)

After resolving the model, the acceptance window `[lower_bound,
upper_bound]` and the pinned mod sets, `recommend` runs

    for n, beatmap in enumerate(self._candidates):
        if n > 50:
            break
        predictions = self._predict(...)
        for mask, prediction in predictions:
            if (lower_bound <= prediction.pp_mean <= upper_bound and
                    prediction.accuracy_mean >= 0.95):
                return self.send(...)
    raise CommandFailure('not enough candidate beatmaps, try again later')

Each iteration first draws one candidate from the (infinite, locked)
candidate generator and only then tests `n > 50`, so candidates with
indices 0..50 are evaluated and one more (index 51) is drawn and
discarded by the break.  The supply is modelled as a function from draw
index to item; `drawn` counts the draws.  The structural `fuel`
argument (run with 52) only bounds the recursion: it never runs out
before the `n > 50` break, and its base case returns the same outcome
as the break. -/

/-- The accuracy threshold `0.95` as an explicitly normalised rational,
so that comparisons against it evaluate. -/
def q095 : ℚ := mkRat 19 20

/-- `q095` is the source's literal `0.95`. -/
theorem q095_eq : q095 = 0.95 := by
  norm_num [q095, mkRat, Rat.normalize]

/-- The acceptance test
`lower_bound <= prediction.pp_mean <= upper_bound and
prediction.accuracy_mean >= 0.95`. -/
def acceptableB (lb ub : ℚ) (p : Prediction) : Bool :=
  decide (lb ≤ p.pp_mean) && decide (p.pp_mean ≤ ub) &&
  decide (p.accuracy_mean ≥ q095)

/-- The inner `for mask, prediction in predictions` loop: the first
acceptable pair, if any. -/
def firstAcceptable (lb ub : ℚ)
    (prs : List ((Mod4 → Bool) × Prediction)) :
    Option ((Mod4 → Bool) × Prediction) :=
  prs.find? fun mp => acceptableB lb ub mp.2

/-- The candidate loop of `recommend`: `n` is the enumeration index,
`drawn` the number of candidates taken from the supply so far. -/
def recommendGo {B : Type} (model : B → (Mod4 → Bool) → Option Prediction)
    (w wo : Mod4 → Bool) (cands : ℕ → B) (lb ub : ℚ) :
    ℕ → ℕ → ℕ → Option (B × (Mod4 → Bool) × Prediction) × ℕ
  | 0, _, drawn => (none, drawn)
  | fuel + 1, n, drawn =>
    if 50 < n then (none, drawn + 1)
    else
      match firstAcceptable lb ub (combinePredict (model (cands n)) w wo) with
      | some mp => (some (cands n, mp.1, mp.2), drawn + 1)
      | none => recommendGo model w wo cands lb ub fuel (n + 1) (drawn + 1)

/-- The candidate loop started from the first candidate, with enough
fuel for the 52 draws a full run makes. -/
def recommendRun {B : Type} (model : B → (Mod4 → Bool) → Option Prediction)
    (w wo : Mod4 → Bool) (cands : ℕ → B) (lb ub : ℚ) :
    Option (B × (Mod4 → Bool) × Prediction) × ℕ :=
  recommendGo model w wo cands lb ub 52 0 0

/-- The outcome of `recommend` after the loop: either the accepted
triple is replied, or the loop falls through to
`raise CommandFailure('not enough candidate beatmaps, try again
later')`. -/
def recommendReply {B : Type} (model : B → (Mod4 → Bool) → Option Prediction)
    (w wo : Mod4 → Bool) (cands : ℕ → B) (lb ub : ℚ) :
    Except String (B × (Mod4 → Bool) × Prediction) :=
  match (recommendRun model w wo cands lb ub).1 with
  | some r => Except.ok r
  | none => Except.error "not enough candidate beatmaps, try again later"

/-- The loop never draws more candidates than it has fuel for. -/
theorem recommendGo_drawn_le {B : Type}
    (model : B → (Mod4 → Bool) → Option Prediction) (w wo : Mod4 → Bool)
    (cands : ℕ → B) (lb ub : ℚ) :
    ∀ fuel n drawn,
      (recommendGo model w wo cands lb ub fuel n drawn).2 ≤ drawn + fuel := by
  intro fuel
  induction fuel with
  | zero =>
    intro n drawn
    simp [recommendGo]
  | succ fuel ih =>
    intro n drawn
    simp only [recommendGo]
    by_cases h50 : 50 < n
    · rw [if_pos h50]
      omega
    · rw [if_neg h50]
      cases hF : firstAcceptable lb ub (combinePredict (model (cands n)) w wo) with
      | some mp =>
        simp only
        omega
      | none =>
        simp only
        have := ih (n + 1) (drawn + 1)
        omega

/-- When the loop returns a triple, it is the first acceptable
(candidate, mask, prediction) by candidate index and prediction order,
found at an index at most 50, and one draw per inspected candidate was
made. -/
theorem recommendGo_some_spec {B : Type}
    (model : B → (Mod4 → Bool) → Option Prediction) (w wo : Mod4 → Bool)
    (cands : ℕ → B) (lb ub : ℚ) :
    ∀ fuel n drawn b m p,
      (recommendGo model w wo cands lb ub fuel n drawn).1 = some (b, m, p) →
      ∃ k, n ≤ k ∧ k ≤ 50 ∧ b = cands k ∧
        firstAcceptable lb ub (combinePredict (model (cands k)) w wo) =
          some (m, p) ∧
        (∀ j, n ≤ j → j < k →
          firstAcceptable lb ub (combinePredict (model (cands j)) w wo) =
            none) ∧
        (recommendGo model w wo cands lb ub fuel n drawn).2 =
          drawn + (k - n) + 1 := by
  intro fuel
  induction fuel with
  | zero =>
    intro n drawn b m p h
    simp [recommendGo] at h
  | succ fuel ih =>
    intro n drawn b m p h
    rw [recommendGo] at h ⊢
    by_cases h50 : 50 < n
    · rw [if_pos h50] at h ⊢
      simp at h
    · rw [if_neg h50] at h ⊢
      cases hF : firstAcceptable lb ub (combinePredict (model (cands n)) w wo) with
      | some mp =>
        rw [hF] at h
        simp only [Option.some.injEq, Prod.mk.injEq] at h
        refine ⟨n, le_refl n, by omega, h.1.symm, ?_, ?_, ?_⟩
        · rw [hF, ← h.2.1, ← h.2.2]
        · intro j hj1 hj2
          omega
        · show drawn + 1 = drawn + (n - n) + 1
          omega
      | none =>
        rw [hF] at h
        obtain ⟨k, hk1, hk2, hkb, hkF, hknone, hkcount⟩ :=
          ih (n + 1) (drawn + 1) b m p h
        refine ⟨k, by omega, hk2, hkb, hkF, ?_, ?_⟩
        · intro j hj1 hj2
          by_cases hjn : j = n
          · rw [hjn]
            exact hF
          · exact hknone j (by omega) hj2
        · show (recommendGo model w wo cands lb ub fuel (n + 1) (drawn + 1)).2 =
            drawn + (k - n) + 1
          omega

/-- When the loop falls through, no candidate with index up to 50 had an
acceptable prediction, and exactly 52 draws were made. -/
theorem recommendGo_none_spec {B : Type}
    (model : B → (Mod4 → Bool) → Option Prediction) (w wo : Mod4 → Bool)
    (cands : ℕ → B) (lb ub : ℚ) :
    ∀ fuel n drawn, n + fuel = 52 →
      (recommendGo model w wo cands lb ub fuel n drawn).1 = none →
      (∀ j, n ≤ j → j ≤ 50 →
        firstAcceptable lb ub (combinePredict (model (cands j)) w wo) = none) ∧
      (recommendGo model w wo cands lb ub fuel n drawn).2 = drawn + fuel := by
  intro fuel
  induction fuel with
  | zero =>
    intro n drawn hn _
    constructor
    · intro j hj1 hj2
      omega
    · simp [recommendGo]
  | succ fuel ih =>
    intro n drawn hn h
    rw [recommendGo] at h ⊢
    by_cases h50 : 50 < n
    · rw [if_pos h50] at h ⊢
      constructor
      · intro j hj1 hj2
        omega
      · simp
        omega
    · rw [if_neg h50] at h ⊢
      cases hF : firstAcceptable lb ub (combinePredict (model (cands n)) w wo) with
      | some mp =>
        rw [hF] at h
        simp at h
      | none =>
        rw [hF] at h
        obtain ⟨hnone, hcount⟩ := ih (n + 1) (drawn + 1) (by omega) h
        constructor
        · intro j hj1 hj2
          by_cases hjn : j = n
          · rw [hjn]
            exact hF
          · exact hnone j (by omega) hj2
        · show (recommendGo model w wo cands lb ub fuel (n + 1) (drawn + 1)).2 =
            drawn + (fuel + 1)
          omega

end Combine

namespace Combine

/-- C1 counterexample: with an acceptance window no prediction can meet,
the loop draws 52 candidates from the supply before raising the Command
Failure — more than the 50 draws the claim allows. -/
theorem recommend_draw_cap_counterexample :
    (recommendRun (fun (_ : ℕ) (_ : Mod4 → Bool) => some ⟨0, 0, 0, 0⟩)
      (fun _ => false) (fun _ => false) (fun n => n) 100 200).2 = 52 ∧
    ¬ (recommendRun (fun (_ : ℕ) (_ : Mod4 → Bool) => some ⟨0, 0, 0, 0⟩)
      (fun _ => false) (fun _ => false) (fun n => n) 100 200).2 ≤ 50 := by
  constructor
  · decide
  · decide

/-- C1 amended: the recommend loop draws at most 52 candidates from the
supply (evaluating predictions for the candidates at indices 0..50 —
up to 51 of them — and drawing one more that the `n > 50` break
discards unevaluated).  It replies with the first (candidate, mask,
prediction) among those whose predicted score lies within
[lower_bound, upper_bound] and whose predicted accuracy is at least
0.95.  If no candidate at an index up to 50 yields such a triple, it
raises the Command Failure 'not enough candidate beatmaps, try again
later' after exactly 52 draws — a `CommandFailure`, never a fatal
error. -/
theorem recommend_spec {B : Type}
    (model : B → (Mod4 → Bool) → Option Prediction) (w wo : Mod4 → Bool)
    (cands : ℕ → B) (lb ub : ℚ) :
    (recommendRun model w wo cands lb ub).2 ≤ 52 ∧
    (∀ b m p, (recommendRun model w wo cands lb ub).1 = some (b, m, p) →
      acceptableB lb ub p = true ∧
      ∃ k, k ≤ 50 ∧ b = cands k ∧
        firstAcceptable lb ub (combinePredict (model (cands k)) w wo) =
          some (m, p) ∧
        (∀ j, j < k →
          firstAcceptable lb ub (combinePredict (model (cands j)) w wo) =
            none) ∧
        (recommendRun model w wo cands lb ub).2 = k + 1) ∧
    ((recommendRun model w wo cands lb ub).1 = none →
      (∀ j, j ≤ 50 →
        firstAcceptable lb ub (combinePredict (model (cands j)) w wo) =
          none) ∧
      (recommendRun model w wo cands lb ub).2 = 52 ∧
      recommendReply model w wo cands lb ub =
        Except.error "not enough candidate beatmaps, try again later") := by
  refine ⟨?_, ?_, ?_⟩
  · have h := recommendGo_drawn_le model w wo cands lb ub 52 0 0
    simpa using h
  · intro b m p h
    obtain ⟨k, hk0, hk50, hb, hF, hnone, hcount⟩ :=
      recommendGo_some_spec model w wo cands lb ub 52 0 0 b m p h
    have hacc : acceptableB lb ub p = true := by
      unfold firstAcceptable at hF
      have := List.find?_some hF
      simpa using this
    refine ⟨hacc, k, hk50, hb, hF, ?_, ?_⟩
    · intro j hj
      exact hnone j (by omega) hj
    · have heq : (0 : ℕ) + (k - 0) + 1 = k + 1 := by omega
      rw [← heq]
      exact hcount
  · intro h
    obtain ⟨hnone, hcount⟩ :=
      recommendGo_none_spec model w wo cands lb ub 52 0 0 (by omega) h
    refine ⟨fun j hj => hnone j (by omega) hj, by simpa using hcount, ?_⟩
    unfold recommendReply
    rw [h]

/-- A demonstration model for the C1 witness: the candidate with id 2
predicts score 150 at accuracy 1, every other candidate scores 0. -/
def demoModel : ℕ → (Mod4 → Bool) → Option Prediction :=
  fun b _ => if b = 2 then some ⟨150, 0, 1, 0⟩ else some ⟨0, 0, 0, 0⟩

/-- Witness for C1's amended theorem: with window [100, 200] the loop
replies with candidate 2 and the no-mod mask. -/
theorem recommend_spec_witness :
    acceptableB 100 200 ⟨150, 0, 1, 0⟩ = true ∧
    ∃ k, k ≤ 50 ∧ (2 : ℕ) = (fun n : ℕ => n) k ∧
      firstAcceptable 100 200
        (combinePredict (demoModel ((fun n : ℕ => n) k))
          (fun _ => false) (fun _ => false)) =
        some (maskOf [], ⟨150, 0, 1, 0⟩) ∧
      (∀ j, j < k →
        firstAcceptable 100 200
          (combinePredict (demoModel ((fun n : ℕ => n) j))
            (fun _ => false) (fun _ => false)) = none) ∧
      (recommendRun demoModel (fun _ => false) (fun _ => false)
        (fun n : ℕ => n) 100 200).2 = k + 1 := by
  exact (recommend_spec demoModel (fun _ => false) (fun _ => false)
    (fun n : ℕ => n) 100 200).2.1 2 (maskOf []) ⟨150, 0, 1, 0⟩ (by decide)

end Combine

namespace Combine

/-! ## Command dispatch (src/combine/handler.py, `Handler.__call__`)

`__call__` drops the message unless `should_handle_message` accepts the
channel, splits the message as `msg.split(' ', 1)`, looks the first
token up in `_commands` (a `KeyError` returns silently), runs the
handler, and turns a raised `CommandFailure` into the single reply
`Error: <message>` to the sender.  A handler body is modelled by the
replies it sends itself plus an optional `CommandFailure` message. -/

/-- The accumulator pass of `splitFirst`. -/
def splitFirstAux (acc : List Char) : List Char → List Char × List Char
  | [] => (acc.reverse, [])
  | c :: rest =>
    if c = ' ' then (acc.reverse, rest) else splitFirstAux (c :: acc) rest

/-- Python `msg.split(' ', 1)`: the first space-delimited token and the
remainder after the first space (empty when there is no space). -/
def splitFirst (msg : String) : String × String :=
  let p := splitFirstAux [] msg.data
  (String.mk p.1, String.mk p.2)

/-- A handler body: from the sender and the argument text, the replies
it sends itself, plus the message of the `CommandFailure` it raises, if
any. -/
def HandlerFn : Type :=
  String → String → List (String × String) × Option String

/-- `Handler.__call__`. -/
def dispatch (cmds : String → Option HandlerFn) (channels : List String)
    (user channel msg : String) : List (String × String) :=
  if channel ∈ channels then
    match cmds (splitFirst msg).1 with
    | none => []
    | some f =>
      let r := f user (splitFirst msg).2
      match r.2 with
      | none => r.1
      | some m => r.1 ++ [(user, "Error: " ++ m)]
  else []

/-- C4: dispatching a message whose first space-delimited token is not a
registered command sends no reply; dispatching a message whose token is
registered and whose handler raises `CommandFailure m` sends exactly one
error reply `Error: m` to the sender (after the handler's own sends),
and the exception does not propagate — `dispatch` is a total function of
the handler outcome. -/
theorem dispatch_spec (cmds : String → Option HandlerFn)
    (channels : List String) (user channel msg : String) :
    (cmds (splitFirst msg).1 = none →
      dispatch cmds channels user channel msg = []) ∧
    (∀ (f : HandlerFn) (sends : List (String × String)) (m : String),
      channel ∈ channels →
      cmds (splitFirst msg).1 = some f →
      f user (splitFirst msg).2 = (sends, some m) →
      dispatch cmds channels user channel msg =
        sends ++ [(user, "Error: " ++ m)]) := by
  constructor
  · intro h
    unfold dispatch
    by_cases hc : channel ∈ channels
    · rw [if_pos hc, h]
    · rw [if_neg hc]
  · intro f sends m hc hf hr
    unfold dispatch
    rw [if_pos hc, hf]
    simp only [hr]

/-- A one-command registry for the C4 witness: `!r` always raises
`CommandFailure('boom')`. -/
def demoCmds : String → Option HandlerFn :=
  fun c => if c = "!r" then some (fun _ _ => ([], some "boom")) else none

/-- Witness for C4: an unknown command is silently ignored and a raising
handler produces the single error reply. -/
theorem dispatch_spec_witness :
    dispatch demoCmds ["bot"] "alice" "bot" "!unknown x" = [] ∧
    dispatch demoCmds ["bot"] "alice" "bot" "!r x" =
      [("alice", "Error: boom")] := by
  constructor
  · exact (dispatch_spec demoCmds ["bot"] "alice" "bot" "!unknown x").1 rfl
  · have h := (dispatch_spec demoCmds ["bot"] "alice" "bot" "!r x").2
      (fun _ _ => ([], some "boom")) [] "boom" (by decide) rfl rfl
    rw [h, show ("Error: " ++ "boom") = "Error: boom" from by decide]
    rfl

end Combine

namespace Combine

/-! ## Acceptance window (src/combine/handler.py, `recommend` cache-miss
branch)

On a user-statistics cache miss, `recommend` fetches up to the 100 best
scores and computes

    user_average = np.average(pp, weights=self._pp_weights[:len(pp)])
    lower_bound = user_average - pp.std()
    upper_bound = pp.max() + (pp.std() / 2)

with `_pp_weights = 0.95 ** np.arange(100)`.  Scores are reals;
`np.average(a, weights=w)` is `sum(a*w)/sum(w)`, `np.std` the population
standard deviation, `np.max` the maximum entry (the score list is
non-empty for a user with best scores). -/

/-- `CombineHandler._pp_weights`: the geometric weights
`0.95 ** np.arange(100)`. -/
noncomputable def ppWeights : List ℝ :=
  (List.range 100).map fun i => (0.95 : ℝ) ^ i

/-- `np.average(xs, weights=ws)`. -/
noncomputable def npAverage (xs ws : List ℝ) : ℝ :=
  (List.zipWith (fun a b => a * b) xs ws).sum / ws.sum

/-- `np.mean`. -/
noncomputable def npMean (xs : List ℝ) : ℝ := xs.sum / xs.length

/-- `np.std`: the population standard deviation. -/
noncomputable def npStd (xs : List ℝ) : ℝ :=
  Real.sqrt (((xs.map fun x => (x - npMean xs) ^ 2).sum) / xs.length)

/-- `np.max` (only ever applied to a non-empty list). -/
noncomputable def listMax : List ℝ → ℝ
  | [] => 0
  | x :: xs => xs.foldl max x

/-- The `(lower_bound, upper_bound)` pair the cache-miss branch of
`recommend` computes from the score list `pp` (most recent first). -/
noncomputable def userStatsBounds (pp : List ℝ) : ℝ × ℝ :=
  (npAverage pp (ppWeights.take pp.length) - npStd pp,
   listMax pp + npStd pp / 2)

/-- The spec's words for the lower bound: the mean of the scores
weighted by the geometric weights `0.95 ^ i`, `i = 0 .. len - 1`, minus
one standard deviation is added by the caller; here only the weighted
mean. -/
noncomputable def specWeightedMean (pp : List ℝ) : ℝ :=
  (∑ i ∈ Finset.range pp.length, (0.95 : ℝ) ^ i * pp.getD i 0) /
  (∑ i ∈ Finset.range pp.length, (0.95 : ℝ) ^ i)

/-- Summing a mapped range as a finite sum. -/
theorem range_map_sum (f : ℕ → ℝ) (n : ℕ) :
    ((List.range n).map f).sum = ∑ i ∈ Finset.range n, f i := by
  induction n with
  | zero => simp
  | succ n ih =>
    rw [List.range_succ, List.map_append, List.sum_append,
      Finset.sum_range_succ, ih]
    simp

/-- Summing the elementwise product of a list with mapped weights. -/
theorem zipWith_weights_sum (l : List ℝ) (f : ℕ → ℝ) :
    (List.zipWith (fun a b => a * b) l ((List.range l.length).map f)).sum =
      ∑ i ∈ Finset.range l.length, l.getD i 0 * f i := by
  induction l generalizing f with
  | nil => simp
  | cons a l ih =>
    have hr : List.range (a :: l).length =
        0 :: (List.range l.length).map Nat.succ := by
      rw [List.length_cons, List.range_succ_eq_map]
    rw [hr, List.map_cons, List.map_map]
    rw [List.zipWith_cons_cons, List.sum_cons]
    rw [ih (f ∘ Nat.succ)]
    rw [List.length_cons, Finset.sum_range_succ']
    simp only [List.getD_cons_succ, List.getD_cons_zero, Function.comp_apply,
      Nat.succ_eq_add_one]
    exact add_comm _ _

end Combine

namespace Combine

/-- C6: on a user-statistics cache miss with a non-empty history of at
most 100 scores (most recent first), the computed lower bound is the
geometric-weight mean of the scores (weights `0.95 ^ i`, most recent
weighted highest) minus one standard deviation, and the upper bound is
the maximum score plus half a standard deviation. -/
theorem user_stats_bounds_spec (pp : List ℝ) (_hne : pp ≠ [])
    (hlen : pp.length ≤ 100) :
    (userStatsBounds pp).1 = specWeightedMean pp - npStd pp ∧
    (userStatsBounds pp).2 = listMax pp + npStd pp / 2 := by
  refine ⟨?_, rfl⟩
  unfold userStatsBounds npAverage specWeightedMean
  have htake : ppWeights.take pp.length =
      (List.range pp.length).map fun i => (0.95 : ℝ) ^ i := by
    unfold ppWeights
    rw [← List.map_take, List.take_range, inf_eq_left.mpr hlen]
  rw [htake, zipWith_weights_sum pp fun i => (0.95 : ℝ) ^ i]
  rw [range_map_sum fun i => (0.95 : ℝ) ^ i]
  have hsum : (∑ i ∈ Finset.range pp.length, pp.getD i 0 * (0.95 : ℝ) ^ i) =
      ∑ i ∈ Finset.range pp.length, (0.95 : ℝ) ^ i * pp.getD i 0 :=
    Finset.sum_congr rfl fun i _ => mul_comm _ _
  rw [hsum]

/-- Witness for C6 on the two-score history [1, 3]. -/
theorem user_stats_bounds_spec_witness :
    (([1, 3] : List ℝ) ≠ []) ∧ (([1, 3] : List ℝ).length ≤ 100) ∧
    (userStatsBounds [1, 3]).1 = specWeightedMean [1, 3] - npStd [1, 3] ∧
    (userStatsBounds [1, 3]).2 = listMax [1, 3] + npStd [1, 3] / 2 := by
  refine ⟨by simp, by simp, user_stats_bounds_spec [1, 3] (by simp) (by simp)⟩

end Combine
